import Mathlib

/-
Shallow embedding of the visualization interop layer of FinancialCrimeWebApp:
the widget registries, the network graph loader and its breadth-first
shortest-path search (incidentGeoMappingInterop.js), the burst detector
(timeline-enhancements.js), the geo marker filter (GeoMapViz.addMarkers),
and the timeline playback state machines (timelineViz.js and the shipment
timeline module).  JS numbers that are only compared and scaled are modelled
as rationals; millisecond timestamps as integers; JS null or undefined or
NaN as Option none; a thrown JS exception as Except.error.
-/

set_option linter.unusedVariables false
set_option linter.unnecessarySimpa false

namespace FCW

/-! JS Map with string keys, modelled as an association list in insertion
order.  Map.set replaces in place when the key is present, else appends. -/

/-- Test of JS Map.has. -/
def mapHas {α : Type} (m : List (String × α)) (k : String) : Bool :=
  m.any (fun p => p.1 == k)

/-- Lookup of JS Map.get (none when absent). -/
def mapGet {α : Type} (m : List (String × α)) (k : String) : Option α :=
  (m.find? (fun p => p.1 == k)).map (fun p => p.2)

/-- Update of JS Map.set: replace in place when present, else append. -/
def mapSet {α : Type} (m : List (String × α)) (k : String) (v : α) : List (String × α) :=
  if mapHas m k then m.map (fun p => if p.1 == k then (k, v) else p)
  else m ++ [(k, v)]

/-- Removal of JS Map.delete. -/
def mapDelete {α : Type} (m : List (String × α)) (k : String) : List (String × α) :=
  m.filter (fun p => !(p.1 == k))

/-- Number of entries under a given key (0 or 1 for a real Map). -/
def countKey {α : Type} (m : List (String × α)) (k : String) : Nat :=
  (m.filter (fun p => p.1 == k)).length

/-! Burst detection (timeline-enhancements.js, TimelineEnhancements.detectBursts). -/

/-- Timeline item as read by detectBursts: the start timestamp in milliseconds. -/
structure TLItem where
  id : String
  start : Int
deriving DecidableEq

/-- Burst record pushed by detectBursts: start time, count, member items. -/
structure Burst where
  start : Int
  count : Nat
  items : List TLItem
deriving DecidableEq

/-- Stable insertion into a list already sorted by start time. -/
def insertByStart (x : TLItem) : List TLItem → List TLItem
  | [] => [x]
  | y :: ys => if x.start < y.start then x :: y :: ys else y :: insertByStart x ys

/-- The sort items.sort by start timestamp (JS sort is stable). -/
def sortByStart (items : List TLItem) : List TLItem :=
  items.foldl (fun acc x => insertByStart x acc) []

/-- Inner loop of detectBursts: counts the consecutive following events whose
timestamp lies within the window of the anchor event, stopping at the first
one outside it (the JS break). -/
def countRun (anchor : Int) (window : Int) : List TLItem → Nat
  | [] => 0
  | x :: xs => if x.start - anchor < window then countRun anchor window xs + 1 else 0

/-- Outer loop of detectBursts: one pass per anchor index over the sorted
items; a burst is pushed for every anchor whose run count reaches the
threshold (so overlapping runs produce several bursts). -/
def burstsAux (threshold : Nat) (window : Int) : List TLItem → List Burst
  | [] => []
  | x :: xs =>
    let count := countRun x.start window xs + 1
    (if threshold ≤ count then [⟨x.start, count, (x :: xs).take count⟩] else [])
      ++ burstsAux threshold window xs

/-- Burst detection with explicit parameters; the source hardcodes them. -/
def detectBurstsWith (threshold : Nat) (window : Int) (items : List TLItem) : List Burst :=
  burstsAux threshold window (sortByStart items)

/-- TimelineEnhancements.detectBursts with its hardcoded constants:
threshold = 5 events, timeWindow = 60 * 60 * 1000 ms. -/
def detectBursts (items : List TLItem) : List Burst :=
  detectBurstsWith 5 (60 * 60 * 1000) items

/-! Geo markers (incidentGeoMappingInterop.js, GeoMapViz.addMarkers). -/

/-- Location record; latitude and longitude are none when the field is
missing, not a number, or NaN (the typeof and isNaN guards of the filter). -/
structure LocRec where
  latitude : Option ℚ
  longitude : Option ℚ
deriving DecidableEq

/-- Validity filter of addMarkers; a none entry models a null location. -/
def isValidLocation : Option LocRec → Bool
  | none => false
  | some l =>
    match l.latitude, l.longitude with
    | some la, some lo =>
      decide (-90 ≤ la) && decide (la ≤ 90) && decide (-180 ≤ lo) && decide (lo ≤ 180)
    | _, _ => false

/-- Locations that pass the validity filter. -/
def validLocations (locations : List (Option LocRec)) : List LocRec :=
  (locations.filter isValidLocation).reduceOption

/-- GeoMapViz.addMarkers: filters the input, returns early (markers
unchanged) when no valid location remains, else appends one marker per
valid location. -/
def addMarkers (markers : List LocRec) (locations : List (Option LocRec)) : List LocRec :=
  let valid := validLocations locations
  if valid.isEmpty then markers
  else markers ++ valid

/-! NetworkGraph data loading (incidentGeoMappingInterop.js, loadData). -/

/-- Node record with the fields loadData touches. -/
structure NodeRec where
  id : Option String
  color : Option String
  size : Option ℚ
  status : Option String
  riskScore : Option ℚ
deriving DecidableEq

/-- Link record with the fields loadData touches; source and target hold
node ids (none when the field is missing). -/
structure LinkRec where
  source : Option String
  target : Option String
  color : Option String
  width : Option ℚ
deriving DecidableEq

/-- Payload of loadData; none models a missing nodes or links field
(the data.nodes || [] defaulting). -/
structure GraphData where
  nodes : Option (List NodeRec)
  links : Option (List LinkRec)

/-- JS falsiness of an optional string (undefined, null or empty). -/
def strFalsy : Option String → Bool
  | none => true
  | some s => s == ""

/-- JS falsiness of an optional number (undefined, null or 0). -/
def numFalsy : Option ℚ → Bool
  | none => true
  | some q => q == 0

/-- NetworkGraph.getNodeColor. -/
def getNodeColor (n : NodeRec) : String :=
  let riskScore := n.riskScore.getD 0
  if n.status == some "Sanctioned" then "#e74c3c"
  else if n.status == some "Flagged" then "#e67e22"
  else if 8 ≤ riskScore then "#e74c3c"
  else if 6 ≤ riskScore then "#f39c12"
  else if 4 ≤ riskScore then "#3498db"
  else "#2ecc71"

/-- NetworkGraph.getNodeSize (baseSize is options.nodeRadius). -/
def getNodeSize (nodeRadius : ℚ) (n : NodeRec) : ℚ :=
  nodeRadius + n.riskScore.getD 0 * 2

/-- Per-node step of loadData; fresh supplies the Math.random based id
assigned when the id field is falsy. -/
def processNode (nodeRadius : ℚ) (fresh : String) (n : NodeRec) : NodeRec :=
  let n1 := if strFalsy n.id then { n with id := some fresh } else n
  let n2 := if strFalsy n1.color then { n1 with color := some (getNodeColor n1) } else n1
  if numFalsy n2.size then { n2 with size := some (getNodeSize nodeRadius n2) } else n2

/-- Per-link step of loadData: fills default color and width; the link is
kept in every case, whether or not its endpoints resolve to nodes. -/
def processLink (l : LinkRec) : LinkRec :=
  let l1 := if strFalsy l.color then { l with color := some "#999" } else l
  if numFalsy l1.width then { l1 with width := some 2 } else l1

/-- Links loadData logs a warning about: exactly those with a falsy source
or target field; nothing is dropped for referencing a nonexistent node. -/
def loadWarnings (links : List LinkRec) : List LinkRec :=
  links.filter (fun l => strFalsy l.source || strFalsy l.target)

/-- In-memory state of a NetworkGraph instance. -/
structure NetworkGraphState where
  containerId : String
  nodes : List NodeRec
  links : List LinkRec
deriving DecidableEq

/-- NetworkGraph.loadData: stores all nodes and links with defaults filled;
no link is excluded and the load never fails. -/
def loadData (nodeRadius : ℚ) (fresh : Nat → String) (g : NetworkGraphState)
    (data : GraphData) : NetworkGraphState :=
  let nodes := (data.nodes.getD []).mapIdx (fun i n => processNode nodeRadius (fresh i) n)
  let links := (data.links.getD []).map processLink
  { g with nodes := nodes, links := links }

/-- Set of node ids present in a node list (for presence hypotheses). -/
def nodeIds (nodes : List NodeRec) : List String :=
  nodes.filterMap (fun n => n.id)

/-! Graph widget creation and registries (incidentGeoMappingInterop.js). -/

/-- NetworkGraph constructor: throws when the container element does not
exist, else starts with empty nodes and links. -/
def mkNetworkGraph (containerExists : Bool) (containerId : String) :
    Except String NetworkGraphState :=
  if containerExists then .ok ⟨containerId, [], []⟩
  else .error ("Container " ++ containerId ++ " not found")

/-- Exported initializeNetworkGraph: graphId models the generated
graph-Date.now-random id; a constructor error is logged and rethrown
(the catch block ends in a rethrow), so it propagates to the caller. -/
def initNetworkGraph (containerExists : Bool)
    (reg : List (String × NetworkGraphState)) (graphId containerId : String) :
    Except String (List (String × NetworkGraphState) × String) :=
  match mkNetworkGraph containerExists containerId with
  | .ok g => .ok (mapSet reg graphId g, graphId)
  | .error e => .error e

/-- Number of registry entries whose instance is bound to a container. -/
def boundTo (reg : List (String × NetworkGraphState)) (containerId : String) : Nat :=
  (reg.filter (fun p => p.2.containerId == containerId)).length

/-- Registry part of initializeEnhancedTimeline: returns false when vis.js
is missing or the container does not resolve; otherwise destroys and
removes any instance registered under the same container id, then builds
the new timeline (ctorOk false models a falsy construction result, which
returns false after the teardown) and registers it under the container id.
Returns the new registry, the instances destroyed, and the success flag.
Instances are opaque numbers. -/
def initEnhancedTimeline (visLoaded containerExists ctorOk : Bool)
    (reg : List (String × Nat)) (containerId : String) (inst : Nat) :
    List (String × Nat) × List Nat × Bool :=
  if !visLoaded then (reg, [], false)
  else if !containerExists then (reg, [], false)
  else
    let destroyed := match mapGet reg containerId with
      | some t => [t]
      | none => []
    let reg1 := if mapHas reg containerId then mapDelete reg containerId else reg
    if !ctorOk then (reg1, destroyed, false)
    else (mapSet reg1 containerId inst, destroyed, true)

/-- Exported destroyTimeline: removes the instance when present and returns
true whether or not one was registered. -/
def destroyTimeline (reg : List (String × Nat)) (containerId : String) :
    List (String × Nat) × Bool :=
  match mapGet reg containerId with
  | some _ => (mapDelete reg containerId, true)
  | none => (reg, true)

/-! The vis.js NetworkGraphInterop module (module-level singleton state). -/

/-- Module-level state of NetworkGraphInterop: network, nodes, edges and
dotNetHelper references (their identities are irrelevant, only presence). -/
structure NGIState where
  network : Option Unit
  nodes : Option Unit
  edges : Option Unit
  dotNetHelper : Option Unit
deriving DecidableEq

namespace NetworkGraphInterop

/-- Function initialize of NetworkGraphInterop: false with a logged error
when the container is missing (no throw), else builds the network. -/
def init (containerExists : Bool) (s : NGIState) : NGIState × Bool :=
  if !containerExists then (s, false)
  else ({ network := some (), nodes := some (), edges := some (),
          dotNetHelper := some () }, true)

/-- Function destroy of NetworkGraphInterop: clears everything and returns
true when a network exists, else returns false. -/
def destroy (s : NGIState) : NGIState × Bool :=
  if s.network.isSome then (⟨none, none, none, none⟩, true)
  else (s, false)

end NetworkGraphInterop

/-! Shortest path (incidentGeoMappingInterop.js, NetworkGraph.findShortestPath). -/

/-- Rendered link: after d3.forceLink resolution source and target hold node
objects; we keep their ids.  The BFS reads only these. -/
structure Link where
  source : String
  target : String
deriving DecidableEq

/-- Undirected adjacency implied by the links (either direction). -/
def adjacent (links : List Link) (a b : String) : Prop :=
  ∃ l ∈ links, (l.source = a ∧ l.target = b) ∨ (l.target = a ∧ l.source = b)

/-- Executable form of adjacency. -/
def adjacentB (links : List Link) (a b : String) : Bool :=
  links.any (fun l => (l.source == a && l.target == b) || (l.target == a && l.source == b))

/-- Ordered node-id sequence that starts at a, ends at b, and steps only
along links (in either direction).  Hop count is length - 1. -/
def IsPath (links : List Link) (a b : String) (p : List String) : Prop :=
  p.head? = some a ∧ p.getLast? = some b ∧ p.Chain' (adjacent links)

/-- Executable form of the chain condition of IsPath. -/
def chainB (links : List Link) : List String → Bool
  | [] => true
  | [_] => true
  | a :: b :: t => adjacentB links a b && chainB links (b :: t)

/-- Executable form of IsPath. -/
def isPathB (links : List Link) (a b : String) (p : List String) : Bool :=
  (p.head? == some a) && (p.getLast? == some b) && chainB links p

/-- Inner forEach of findShortestPath over the link list: each link adjacent
to the current node whose far endpoint is unvisited marks that endpoint
visited and records it, in link order.  Returns (new visited, new nodes). -/
def expand (current : String) (visited : List String) :
    List Link → List String × List String
  | [] => (visited, [])
  | l :: ls =>
    if l.source = current ∧ l.target ∉ visited then
      let r := expand current (l.target :: visited) ls
      (r.1, l.target :: r.2)
    else if l.target = current ∧ l.source ∉ visited then
      let r := expand current (l.source :: visited) ls
      (r.1, l.source :: r.2)
    else expand current visited ls

/-- BFS loop of findShortestPath.  Queue paths are stored reversed (current
node first; the JS keeps the current node last and reads path[length - 1]),
so the JS push of path concatenated with the neighbor is a cons here and the
found path is returned reversed.  An empty stored path (impossible: the JS
undefined current matches no string) skips to the next queue entry.  Fuel
bounds the iteration count; findShortestPath supplies enough fuel for the
loop to run to completion, since every iteration pops one entry and entries
are only pushed for newly visited link endpoints. -/
def bfsAux (links : List Link) (targetId : String) :
    Nat → List (List String) → List String → Option (List String)
  | 0, _, _ => none
  | _ + 1, [], _ => none
  | fuel + 1, revPath :: rest, visited =>
    match revPath with
    | [] => bfsAux links targetId fuel rest visited
    | current :: _ =>
      if current = targetId then some revPath.reverse
      else
        let r := expand current visited links
        bfsAux links targetId fuel (rest ++ r.2.map (fun n => n :: revPath)) r.1

/-- NetworkGraph.findShortestPath: BFS from sourceId with queue [[sourceId]]
and visited set containing sourceId; returns none (JS null) when the queue
empties without reaching targetId. -/
def findShortestPath (links : List Link) (sourceId targetId : String) :
    Option (List String) :=
  bfsAux links targetId (4 * links.length + 1) [[sourceId]] [sourceId]

/-- Node ids occurring as a link endpoint. -/
def endIds (links : List Link) : Finset String :=
  (links.map Link.source ++ links.map Link.target).toFinset

/-- Termination measure of the BFS loop: queue length plus twice the number
of unvisited endpoint ids. -/
def bfsMeasure (links : List Link) (q : List (List String)) (v : List String) : Nat :=
  q.length + 2 * ((endIds links) \ v.toFinset).card

/-- Queue soundness invariant: every stored (reversed) path is nonempty,
reads its current node first, and reversed is a link path from the source. -/
def QueueOK (links : List Link) (A : String) (q : List (List String)) : Prop :=
  ∀ rp ∈ q, ∃ c, rp.head? = some c ∧ IsPath links A c rp.reverse

/-- Full BFS invariant over a queue and visited list, for source A and
target B: queue validity, visited bookkeeping, the level (length) structure
of the queue, minimality of stored paths, and coverage of all nodes
reachable within the current level. -/
structure BfsInv (links : List Link) (A B : String)
    (q : List (List String)) (v : List String) : Prop where
  valid : ∀ rp ∈ q, ∃ c, rp.head? = some c ∧ IsPath links A c rp.reverse
  headsVis : ∀ rp ∈ q, ∀ c, rp.head? = some c → c ∈ v
  srcVis : A ∈ v
  pendingOrDone : ∀ u ∈ v,
    (∃ rp ∈ q, rp.head? = some u) ∨ (∀ w, adjacent links u w → w ∈ v)
  targetPending : B ∈ v → ∃ rp ∈ q, rp.head? = some B
  sorted : q.Pairwise (fun a b => a.length ≤ b.length)
  within1 : ∀ rp ∈ q, ∀ rp' ∈ q, rp.length ≤ rp'.length + 1
  shortest : ∀ rp ∈ q, ∀ c, rp.head? = some c →
    ∀ p, IsPath links A c p → rp.length ≤ p.length
  cover : ∀ rp₀, q.head? = some rp₀ →
    ∀ u p, IsPath links A u p → p.length ≤ rp₀.length → u ∈ v

/-! Shipment timeline playback (module state shipmentTimelinePlayback). -/

/-- Playback state of the shipment timeline, together with the multiset of
repeating timers currently scheduled (activeTimers) so the one-timer
invariant can be stated; interval holds the id stored by setInterval. -/
structure ShipState where
  containerId : Option String
  isPlaying : Bool
  currentIndex : Nat
  interval : Option Nat
  activeTimers : List Nat
deriving DecidableEq

/-- Initial shipment playback state. -/
def shipInit : ShipState := ⟨none, false, 0, none, []⟩

/-- playShipmentTimeline: early false when no container is recorded, the
timeline is gone from the registry (timelineFound), or there are no items;
early true leaving the state untouched when already playing; otherwise
wraps the index, starts one interval timer (freshTimer) and reports true. -/
def playShipmentTimeline (timelineFound : Bool) (itemsLen : Nat) (freshTimer : Nat)
    (s : ShipState) : ShipState × Bool :=
  if s.containerId = none then (s, false)
  else if !timelineFound then (s, false)
  else if itemsLen = 0 then (s, false)
  else if s.isPlaying then (s, true)
  else
    let idx := if itemsLen ≤ s.currentIndex then 0 else s.currentIndex
    ({ s with isPlaying := true, currentIndex := idx,
              interval := some freshTimer,
              activeTimers := s.activeTimers ++ [freshTimer] }, true)

/-- pauseShipmentTimeline: clears the interval when set and stops playing;
the position is kept. -/
def pauseShipmentTimeline (s : ShipState) : ShipState × Bool :=
  let s1 :=
    match s.interval with
    | some t => { s with interval := none,
                         activeTimers := s.activeTimers.filter (fun x => x ≠ t) }
    | none => s
  ({ s1 with isPlaying := false }, true)

/-- stopShipmentTimeline: clears the interval, stops playing and resets the
position to the start. -/
def stopShipmentTimeline (s : ShipState) : ShipState × Bool :=
  let s1 :=
    match s.interval with
    | some t => { s with interval := none,
                         activeTimers := s.activeTimers.filter (fun x => x ≠ t) }
    | none => s
  ({ s1 with isPlaying := false, currentIndex := 0 }, true)

/-- One tick of the playback interval: advances the index while items
remain, else pauses (the end-of-run branch). -/
def shipTick (itemsLen : Nat) (s : ShipState) : ShipState :=
  if s.currentIndex < itemsLen then { s with currentIndex := s.currentIndex + 1 }
  else (pauseShipmentTimeline s).1

/-- initializeShipmentTimeline records the container id for playback. -/
def setShipContainer (cid : String) (s : ShipState) : ShipState :=
  { s with containerId := some cid }

/-- Operations the host can trigger on the shipment playback state. -/
inductive ShipStep : ShipState → ShipState → Prop
  | play (tf : Bool) (n fresh : Nat) (s : ShipState) :
      ShipStep s (playShipmentTimeline tf n fresh s).1
  | pause (s : ShipState) : ShipStep s (pauseShipmentTimeline s).1
  | stop (s : ShipState) : ShipStep s (stopShipmentTimeline s).1
  | tick (n : Nat) (s : ShipState) : ShipStep s (shipTick n s)
  | setc (cid : String) (s : ShipState) : ShipStep s (setShipContainer cid s)

/-- States reachable from the initial shipment playback state. -/
def ShipReachable (s : ShipState) : Prop :=
  Relation.ReflTransGen ShipStep shipInit s

/-- Timer invariant of the shipment playback state. -/
def ShipInv (s : ShipState) : Prop :=
  (s.interval = none ∧ s.activeTimers = []) ∨
  (∃ t, s.interval = some t ∧ s.activeTimers = [t] ∧ s.isPlaying = true)

/-! TimelineViz playback (toolkits/timelineViz.js). -/

/-- Playback state of one TimelineViz instance plus its scheduled repeating
timers; eventsLen is the length of this.events.  Note pause does not clear
the stored playbackTimer handle, it only cancels the timer. -/
structure VizState where
  isPlaying : Bool
  playbackIndex : Nat
  playbackTimer : Option Nat
  activeTimers : List Nat
  eventsLen : Nat
deriving DecidableEq

/-- State after addPlaybackControls: index 0, not playing, no timer. -/
def vizInit (eventsLen : Nat) : VizState := ⟨false, 0, none, [], eventsLen⟩

namespace TimelineViz

/-- TimelineViz.play: returns at once when already playing; otherwise marks
playing, resets the playback index to 0, and starts one interval timer. -/
def play (freshTimer : Nat) (s : VizState) : VizState :=
  if s.isPlaying then s
  else { s with isPlaying := true, playbackIndex := 0,
                playbackTimer := some freshTimer,
                activeTimers := s.activeTimers ++ [freshTimer] }

/-- TimelineViz.pause: stops playing and cancels the timer when the handle
is set; the handle itself and the playback index are left untouched. -/
def pause (s : VizState) : VizState :=
  let s1 := { s with isPlaying := false }
  match s1.playbackTimer with
  | some t => { s1 with activeTimers := s1.activeTimers.filter (fun x => x ≠ t) }
  | none => s1

/-- TimelineViz.stop: pause, then reset the playback index to 0. -/
def stop (s : VizState) : VizState :=
  let s1 := pause s
  { s1 with playbackIndex := 0 }

/-- One tick of the play interval: stops past the end, else advances. -/
def tick (s : VizState) : VizState :=
  if s.eventsLen ≤ s.playbackIndex then stop s
  else { s with playbackIndex := s.playbackIndex + 1 }

end TimelineViz

/-- Operations on a TimelineViz playback state. -/
inductive VizStep : VizState → VizState → Prop
  | play (fresh : Nat) (s : VizState) : VizStep s (TimelineViz.play fresh s)
  | pause (s : VizState) : VizStep s (TimelineViz.pause s)
  | stop (s : VizState) : VizStep s (TimelineViz.stop s)
  | tick (s : VizState) : VizStep s (TimelineViz.tick s)

/-- States reachable from a fresh TimelineViz playback state. -/
def VizReachable (eventsLen : Nat) (s : VizState) : Prop :=
  Relation.ReflTransGen VizStep (vizInit eventsLen) s

/-- Timer invariant of a TimelineViz playback state. -/
def VizInv (s : VizState) : Prop :=
  s.activeTimers = [] ∨
  (∃ t, s.playbackTimer = some t ∧ s.activeTimers = [t] ∧ s.isPlaying = true)

/-! Executable characterizations of the path predicates. -/

theorem adjacentB_iff (links : List Link) (a b : String) :
    adjacentB links a b = true ↔ adjacent links a b := by
  simp [adjacentB, adjacent, List.any_eq_true]

theorem chainB_iff (links : List Link) : ∀ p : List String,
    chainB links p = true ↔ p.Chain' (adjacent links)
  | [] => by simp [chainB]
  | [a] => by simp [chainB]
  | a :: b :: t => by
    simp [chainB, List.chain'_cons, adjacentB_iff, chainB_iff links (b :: t)]

theorem isPathB_iff (links : List Link) (a b : String) (p : List String) :
    isPathB links a b p = true ↔ IsPath links a b p := by
  simp [isPathB, IsPath, chainB_iff, and_assoc]

/-! Association list (JS Map) lemmas. -/

theorem mapGet_mapDelete {α : Type} (m : List (String × α)) (k : String) :
    mapGet (mapDelete m k) k = none := by
  induction m with
  | nil => rfl
  | cons p m ih =>
    simp only [mapGet, mapDelete] at ih ⊢
    by_cases h : p.1 == k
    · simpa [List.filter_cons, h] using ih
    · simpa [List.filter_cons, h] using ih

theorem mapHas_mapDelete {α : Type} (m : List (String × α)) (k : String) :
    mapHas (mapDelete m k) k = false := by
  simp only [mapHas, mapDelete, List.any_eq_false]
  intro p hp
  rw [List.mem_filter] at hp
  simpa using hp.2

theorem countKey_of_not_has {α : Type} (m : List (String × α)) (k : String)
    (h : mapHas m k = false) : countKey m k = 0 := by
  simp only [mapHas, List.any_eq_false] at h
  simp only [countKey, List.length_eq_zero, List.filter_eq_nil_iff]
  exact h

theorem countKey_append {α : Type} (m m' : List (String × α)) (k : String) :
    countKey (m ++ m') k = countKey m k + countKey m' k := by
  simp [countKey, List.filter_append]

theorem mapGet_append_right {α : Type} (m : List (String × α)) (k : String) (v : α)
    (h : mapHas m k = false) : mapGet (m ++ [(k, v)]) k = some v := by
  simp only [mapHas, List.any_eq_false] at h
  simp only [mapGet, List.find?_append]
  have hnone : m.find? (fun p => p.1 == k) = none := by
    rw [List.find?_eq_none]
    exact h
  simp [hnone]

theorem mapSet_of_not_has {α : Type} (m : List (String × α)) (k : String) (v : α)
    (h : mapHas m k = false) : mapSet m k v = m ++ [(k, v)] := by
  simp [mapSet, h]

/-! Burst detection lemmas. -/

theorem countRun_le_length (anchor window : Int) :
    ∀ xs : List TLItem, countRun anchor window xs ≤ xs.length
  | [] => by simp [countRun]
  | x :: xs => by
    by_cases h : x.start - anchor < window
    · simpa [countRun, h] using countRun_le_length anchor window xs
    · simp [countRun, h]

theorem burstsAux_count (threshold : Nat) (window : Int) :
    ∀ l : List TLItem, ∀ b ∈ burstsAux threshold window l,
      threshold ≤ b.count ∧ b.items.length = b.count
  | [], b, hb => by simp [burstsAux] at hb
  | x :: xs, b, hb => by
    rw [burstsAux, List.mem_append] at hb
    rcases hb with hb | hb
    · by_cases h : threshold ≤ countRun x.start window xs + 1
      · rw [if_pos h, List.mem_singleton] at hb
        subst hb
        refine ⟨h, ?_⟩
        have hlen : countRun x.start window xs + 1 ≤ (x :: xs).length := by
          simpa using Nat.succ_le_succ (countRun_le_length x.start window xs)
        simpa using Nat.min_eq_left hlen
      · rw [if_neg h] at hb
        simp at hb
    · exact burstsAux_count threshold window xs b hb

/-! Claim C3.  The source hardcodes threshold 5 and a one-hour window and
reports one burst per anchor event whose forward run (events within the
window of the anchor) reaches the threshold; overlapping runs are each
reported. -/

/-- C3 counterexample: six events spaced 10 minutes apart form one maximal
run (each consecutive pair is 10 minutes apart, within the one-hour
window), yet detectBursts reports two overlapping bursts, one for each of
the first two anchors, refuting the claim that a burst is a maximal run and
that overlapping sub-runs are not reported separately. -/
theorem detectBursts_overlap_counterexample :
    detectBursts [⟨"f1", 0⟩, ⟨"f2", 600000⟩, ⟨"f3", 1200000⟩, ⟨"f4", 1800000⟩,
        ⟨"f5", 2400000⟩, ⟨"f6", 3000000⟩]
      = [⟨0, 6, [⟨"f1", 0⟩, ⟨"f2", 600000⟩, ⟨"f3", 1200000⟩, ⟨"f4", 1800000⟩,
            ⟨"f5", 2400000⟩, ⟨"f6", 3000000⟩]⟩,
         ⟨600000, 5, [⟨"f2", 600000⟩, ⟨"f3", 1200000⟩, ⟨"f4", 1800000⟩,
            ⟨"f5", 2400000⟩, ⟨"f6", 3000000⟩]⟩] := by
  rfl

/-- C3 amended: with the hardcoded parameters (threshold 5 events, window
one hour), five events at t = 0,1,2,3,4 minutes are reported as exactly one
burst of count 5 containing all five events (only the first anchor reaches
the threshold); in general every reported burst counts at least the
threshold of events and carries exactly count member items, one burst per
qualifying anchor. -/
theorem detectBursts_amended :
    (detectBursts [⟨"e1", 0⟩, ⟨"e2", 60000⟩, ⟨"e3", 120000⟩, ⟨"e4", 180000⟩,
        ⟨"e5", 240000⟩]
      = [⟨0, 5, [⟨"e1", 0⟩, ⟨"e2", 60000⟩, ⟨"e3", 120000⟩, ⟨"e4", 180000⟩,
          ⟨"e5", 240000⟩]⟩]) ∧
    (∀ items : List TLItem, ∀ b ∈ detectBursts items,
      5 ≤ b.count ∧ b.items.length = b.count) := by
  refine ⟨by rfl, ?_⟩
  intro items b hb
  exact burstsAux_count 5 (60 * 60 * 1000) (sortByStart items) b hb

/-- C3 amended, witness: the single burst of the five-minute scenario has
count 5 and five member items. -/
theorem detectBursts_amended_witness :
    5 ≤ (Burst.mk 0 5 [⟨"e1", 0⟩, ⟨"e2", 60000⟩, ⟨"e3", 120000⟩, ⟨"e4", 180000⟩,
        ⟨"e5", 240000⟩]).count ∧
    (Burst.mk 0 5 [⟨"e1", 0⟩, ⟨"e2", 60000⟩, ⟨"e3", 120000⟩, ⟨"e4", 180000⟩,
        ⟨"e5", 240000⟩]).items.length
      = (Burst.mk 0 5 [⟨"e1", 0⟩, ⟨"e2", 60000⟩, ⟨"e3", 120000⟩, ⟨"e4", 180000⟩,
        ⟨"e5", 240000⟩]).count :=
  detectBursts_amended.2
    [⟨"e1", 0⟩, ⟨"e2", 60000⟩, ⟨"e3", 120000⟩, ⟨"e4", 180000⟩, ⟨"e5", 240000⟩]
    _ (by rw [detectBursts_amended.1]; exact List.mem_singleton.mpr rfl)

/-! Claim C7: the addMarkers range filter. -/

theorem addMarkers_nil (locations : List (Option LocRec)) :
    addMarkers [] locations = validLocations locations := by
  simp only [addMarkers]
  split
  · next h => rw [List.isEmpty_iff.mp h]
  · rw [List.nil_append]

theorem mem_validLocations (locations : List (Option LocRec)) (l : LocRec) :
    l ∈ validLocations locations ↔
      some l ∈ locations ∧ isValidLocation (some l) = true := by
  simp [validLocations, List.reduceOption_mem_iff, List.mem_filter]

theorem isValidLocation_some_iff (l : LocRec) :
    isValidLocation (some l) = true ↔
      (∃ a, l.latitude = some a ∧ -90 ≤ a ∧ a ≤ 90) ∧
      (∃ b, l.longitude = some b ∧ -180 ≤ b ∧ b ≤ 180) := by
  cases hla : l.latitude with
  | none => simp [isValidLocation, hla]
  | some a =>
    cases hlo : l.longitude with
    | none => simp [isValidLocation, hla, hlo]
    | some b => simp [isValidLocation, hla, hlo, and_assoc]

/-- C7: a marker is rendered iff its entry has a latitude in [-90, 90] and
a longitude in [-180, 180]; an entry with latitude 91 is excluded; with no
valid marker the call leaves the marker set untouched (early return, no
throw). -/
theorem addMarkers_range_filter (locations : List (Option LocRec)) (l : LocRec) :
    (l ∈ addMarkers [] locations ↔
      some l ∈ locations ∧ (∃ a, l.latitude = some a ∧ -90 ≤ a ∧ a ≤ 90) ∧
        (∃ b, l.longitude = some b ∧ -180 ≤ b ∧ b ≤ 180)) ∧
    (l.latitude = some 91 → l ∉ addMarkers [] locations) ∧
    (∀ markers, validLocations locations = [] → addMarkers markers locations = markers) := by
  refine ⟨?_, ?_, ?_⟩
  · rw [addMarkers_nil, mem_validLocations, isValidLocation_some_iff]
  · intro h91 hmem
    rw [addMarkers_nil, mem_validLocations, isValidLocation_some_iff] at hmem
    obtain ⟨-, ⟨a, ha, -, h2⟩, -⟩ := hmem
    rw [h91] at ha
    obtain rfl : (91 : ℚ) = a := Option.some.inj ha
    norm_num at h2
  · intro markers hempty
    simp [addMarkers, hempty]

/-- C7 witness: a marker with latitude 91 is filtered out, and a call whose
only entries are invalid leaves the marker set unchanged. -/
theorem addMarkers_range_filter_witness :
    ((⟨some 91, some 0⟩ : LocRec).latitude = some 91) ∧
    (⟨some 91, some 0⟩ : LocRec) ∉
      addMarkers [] [some ⟨some 91, some 0⟩, some ⟨some 10, some 20⟩, none] ∧
    addMarkers [⟨some 1, some 2⟩] [some ⟨some 91, some 0⟩, none] = [⟨some 1, some 2⟩] :=
  ⟨rfl,
   (addMarkers_range_filter [some ⟨some 91, some 0⟩, some ⟨some 10, some 20⟩, none]
      ⟨some 91, some 0⟩).2.1 rfl,
   (addMarkers_range_filter [some ⟨some 91, some 0⟩, none] ⟨some 91, some 0⟩).2.2
      [⟨some 1, some 2⟩] (by rfl)⟩

/-! Claim C4: loadData keeps dangling links. -/

theorem processLink_source (l : LinkRec) : (processLink l).source = l.source := by
  unfold processLink
  split <;> (dsimp only; split <;> rfl)

theorem processLink_target (l : LinkRec) : (processLink l).target = l.target := by
  unfold processLink
  split <;> (dsimp only; split <;> rfl)

/-- C4 counterexample: a model with no nodes and one link from id a to id b
(both dangling) loads with the link kept (defaults filled in), not
excluded: the loaded link list has the dangling link and the node list is
empty. -/
theorem loadData_keeps_dangling :
    (loadData 20 (fun _ => "r0") ⟨"c", [], []⟩
        ⟨some [], some [⟨some "a", some "b", none, none⟩]⟩).links
      = [⟨some "a", some "b", some "#999", some 2⟩] ∧
    (loadData 20 (fun _ => "r0") ⟨"c", [], []⟩
        ⟨some [], some [⟨some "a", some "b", none, none⟩]⟩).nodes = [] := by
  exact ⟨rfl, rfl⟩

/-- C4 amended: loadData keeps every link record with its endpoints
unchanged (processing only fills default color and width), loads one node
per input node record, warns exactly on links whose source or target field
is falsy (missing or empty), and never fails the load; links whose
endpoints do not reference an existing node are kept, not dropped. -/
theorem loadData_amended (nodeRadius : ℚ) (fresh : Nat → String)
    (g : NetworkGraphState) (data : GraphData) :
    ((loadData nodeRadius fresh g data).links.map (fun l => (l.source, l.target))
        = (data.links.getD []).map (fun l => (l.source, l.target))) ∧
    ((loadData nodeRadius fresh g data).links.length = (data.links.getD []).length) ∧
    ((loadData nodeRadius fresh g data).nodes.length = (data.nodes.getD []).length) ∧
    (∀ l ∈ loadWarnings (data.links.getD []),
        strFalsy l.source = true ∨ strFalsy l.target = true) := by
  refine ⟨?_, ?_, ?_, ?_⟩
  · show ((data.links.getD []).map processLink).map (fun l => (l.source, l.target)) = _
    rw [List.map_map]
    refine List.map_congr_left ?_
    intro l _
    simp [Function.comp, processLink_source, processLink_target]
  · show ((data.links.getD []).map processLink).length = _
    rw [List.length_map]
  · show ((data.nodes.getD []).mapIdx _).length = _
    rw [List.length_mapIdx]
  · intro l hl
    rw [loadWarnings, List.mem_filter] at hl
    simpa using hl.2

/-- C4 amended, witness: a link with a missing source field is among the
warned links. -/
theorem loadData_amended_witness :
    strFalsy (none : Option String) = true ∨ strFalsy (some "b") = true :=
  (loadData_amended 20 (fun _ => "r") ⟨"c", [], []⟩
      ⟨some [], some [⟨none, some "b", none, none⟩]⟩).2.2.2
    ⟨none, some "b", none, none⟩ (by simp [loadWarnings, strFalsy])

/-! Claim C6: behavior when the container does not resolve. -/

/-- C6 counterexample: initializeNetworkGraph on a missing container ends
in the constructor error being rethrown to the caller (an Except.error, not
a false or null success result). -/
theorem initNetworkGraph_rethrows :
    initNetworkGraph false [] "g1" "c" = Except.error "Container c not found" := by
  rfl

/-- C6 amended: NetworkGraphInterop.initialize returns false (with a logged
error, without throwing) when the container is missing, but
initializeNetworkGraph of incidentGeoMappingInterop.js catches the
constructor error and rethrows it, so that caller sees a propagated
exception rather than an error result. -/
theorem containerMissing_behavior :
    (∀ s, NetworkGraphInterop.init false s = (s, false)) ∧
    (∀ reg gid cid, initNetworkGraph false reg gid cid
        = Except.error ("Container " ++ cid ++ " not found")) :=
  ⟨fun _ => rfl, fun _ _ _ => rfl⟩

/-! Claim C8: double destroy. -/

/-- C8 counterexample: from an initialized NetworkGraphInterop state the
first destroy returns true but the second returns false, refuting that
destroy reports success both times for every instance. -/
theorem ngiDestroy_second_false :
    (NetworkGraphInterop.destroy ⟨some (), some (), some (), some ()⟩).2 = true ∧
    (NetworkGraphInterop.destroy
        (NetworkGraphInterop.destroy ⟨some (), some (), some (), some ()⟩).1).2 = false :=
  ⟨rfl, rfl⟩

/-- C8 amended: destroyTimeline returns success on both of two successive
calls (the second is a no-op), and neither call can throw; but
NetworkGraphInterop.destroy returns true only while a network exists and
false on the second call (still without throwing). -/
theorem destroy_twice_behavior :
    (∀ reg cid, (destroyTimeline reg cid).2 = true ∧
        (destroyTimeline (destroyTimeline reg cid).1 cid).2 = true ∧
        mapGet (destroyTimeline reg cid).1 cid = none) ∧
    (∀ s : NGIState, s.network = some () →
        (NetworkGraphInterop.destroy s).2 = true ∧
        (NetworkGraphInterop.destroy (NetworkGraphInterop.destroy s).1).2 = false) := by
  constructor
  · intro reg cid
    refine ⟨?_, ?_, ?_⟩
    · unfold destroyTimeline
      cases mapGet reg cid <;> rfl
    · unfold destroyTimeline
      cases mapGet reg cid <;> (cases h : mapGet _ cid <;> simp [h])
    · unfold destroyTimeline
      cases h : mapGet reg cid with
      | none => simpa using h
      | some t => simpa using mapGet_mapDelete reg cid
  · intro s hs
    constructor
    · simp [NetworkGraphInterop.destroy, hs]
    · simp [NetworkGraphInterop.destroy, hs]

/-- C8 witness: for the concrete timeline registry holding container tl and
the concrete initialized interop state, the stated return values hold. -/
theorem destroy_twice_behavior_witness :
    ((destroyTimeline [("tl", 1)] "tl").2 = true ∧
      (destroyTimeline (destroyTimeline [("tl", 1)] "tl").1 "tl").2 = true ∧
      mapGet (destroyTimeline [("tl", 1)] "tl").1 "tl" = none) ∧
    (NGIState.network ⟨some (), some (), some (), some ()⟩ = some ()) ∧
    ((NetworkGraphInterop.destroy ⟨some (), some (), some (), some ()⟩).2 = true ∧
      (NetworkGraphInterop.destroy
        (NetworkGraphInterop.destroy ⟨some (), some (), some (), some ()⟩).1).2 = false) :=
  ⟨destroy_twice_behavior.1 [("tl", 1)] "tl", rfl,
   destroy_twice_behavior.2 ⟨some (), some (), some (), some ()⟩ rfl⟩

/-! Claim C2: double initialization on one container. -/

theorem initET_pre_not_has (reg : List (String × Nat)) (cid : String) :
    mapHas (if mapHas reg cid then mapDelete reg cid else reg) cid = false := by
  cases h : mapHas reg cid with
  | true => simpa [h] using mapHas_mapDelete reg cid
  | false => simpa [h] using h

/-- C2 counterexample: two initializeNetworkGraph calls for the same
container id c (with the two generated graph ids) leave the graph registry
with two live entries bound to c, refuting the claim that a prior instance
is torn down and that the registry never holds two entries for a container. -/
theorem graphRegistry_two_entries :
    initNetworkGraph true [] "g1" "c" = .ok ([("g1", ⟨"c", [], []⟩)], "g1") ∧
    initNetworkGraph true [("g1", ⟨"c", [], []⟩)] "g2" "c"
      = .ok ([("g1", ⟨"c", [], []⟩), ("g2", ⟨"c", [], []⟩)], "g2") ∧
    boundTo [("g1", ⟨"c", [], []⟩), ("g2", ⟨"c", [], []⟩)] "c" = 2 :=
  ⟨rfl, rfl, rfl⟩

/-- C2 amended: the enhanced timeline initialization does destroy and
replace (after two calls the registry holds exactly one entry for the
container, the new instance, and the second call reports the first
instance as destroyed); but initializeNetworkGraph registers every call
under a fresh graph id without tearing down prior instances, so two calls
for one container add two registry entries bound to it. -/
theorem initTwice_behavior (reg : List (String × Nat)) (cid : String) (i1 i2 : Nat)
    (regG : List (String × NetworkGraphState)) (gid1 gid2 cidG : String)
    (h1 : mapHas regG gid1 = false)
    (h2 : mapHas (mapSet regG gid1 ⟨cidG, [], []⟩) gid2 = false) :
    (countKey (initEnhancedTimeline true true true
        (initEnhancedTimeline true true true reg cid i1).1 cid i2).1 cid = 1) ∧
    (mapGet (initEnhancedTimeline true true true
        (initEnhancedTimeline true true true reg cid i1).1 cid i2).1 cid = some i2) ∧
    ((initEnhancedTimeline true true true
        (initEnhancedTimeline true true true reg cid i1).1 cid i2).2.1 = [i1]) ∧
    (initNetworkGraph true regG gid1 cidG
        = .ok (mapSet regG gid1 ⟨cidG, [], []⟩, gid1)) ∧
    (boundTo (mapSet (mapSet regG gid1 ⟨cidG, [], []⟩) gid2 ⟨cidG, [], []⟩) cidG
        = boundTo regG cidG + 2) := by
  have hpre1 := initET_pre_not_has reg cid
  have hr1 : (initEnhancedTimeline true true true reg cid i1).1
      = (if mapHas reg cid then mapDelete reg cid else reg) ++ [(cid, i1)] := by
    simp only [initEnhancedTimeline, Bool.not_true, Bool.false_eq_true, if_false]
    exact congrArg (fun m => m) (by rw [mapSet_of_not_has _ _ _ hpre1])
  have hhas1 : mapHas ((if mapHas reg cid then mapDelete reg cid else reg) ++ [(cid, i1)]) cid
      = true := by
    simp [mapHas]
  have hget1 : mapGet ((if mapHas reg cid then mapDelete reg cid else reg) ++ [(cid, i1)]) cid
      = some i1 := mapGet_append_right _ _ _ hpre1
  have hpre2 := initET_pre_not_has
    ((if mapHas reg cid then mapDelete reg cid else reg) ++ [(cid, i1)]) cid
  have hr2 : (initEnhancedTimeline true true true
      ((if mapHas reg cid then mapDelete reg cid else reg) ++ [(cid, i1)]) cid i2)
      = (mapDelete ((if mapHas reg cid then mapDelete reg cid else reg) ++ [(cid, i1)]) cid
          ++ [(cid, i2)], [i1], true) := by
    simp only [initEnhancedTimeline, Bool.not_true, Bool.false_eq_true, if_false, hget1, hhas1,
      if_true]
    rw [mapSet_of_not_has _ _ _ (by simpa [hhas1] using mapHas_mapDelete _ cid)]
  refine ⟨?_, ?_, ?_, rfl, ?_⟩
  · rw [hr1, hr2]
    simp only [countKey_append]
    rw [countKey_of_not_has _ _ (mapHas_mapDelete _ cid)]
    simp [countKey]
  · rw [hr1, hr2]
    exact mapGet_append_right _ _ _ (mapHas_mapDelete _ cid)
  · rw [hr1, hr2]
  · rw [mapSet_of_not_has _ _ _ h1] at h2 ⊢
    rw [mapSet_of_not_has _ _ _ h2]
    simp [boundTo, List.filter_append]

/-- C2 witness: concrete double initialization, timeline part on container
tl and graph part on container c with generated ids g1 and g2. -/
theorem initTwice_behavior_witness :
    (mapHas ([] : List (String × NetworkGraphState)) "g1" = false) ∧
    (mapHas (mapSet ([] : List (String × NetworkGraphState)) "g1" ⟨"c", [], []⟩) "g2"
        = false) ∧
    ((countKey (initEnhancedTimeline true true true
        (initEnhancedTimeline true true true [] "tl" 5).1 "tl" 6).1 "tl" = 1) ∧
      (mapGet (initEnhancedTimeline true true true
        (initEnhancedTimeline true true true [] "tl" 5).1 "tl" 6).1 "tl" = some 6) ∧
      ((initEnhancedTimeline true true true
        (initEnhancedTimeline true true true [] "tl" 5).1 "tl" 6).2.1 = [5]) ∧
      (initNetworkGraph true [] "g1" "c"
        = .ok (mapSet [] "g1" ⟨"c", [], []⟩, "g1")) ∧
      (boundTo (mapSet (mapSet [] "g1" ⟨"c", [], []⟩) "g2" ⟨"c", [], []⟩) "c"
        = boundTo [] "c" + 2)) :=
  ⟨rfl, rfl, initTwice_behavior [] "tl" 5 6 [] "g1" "g2" "c" rfl rfl⟩

/-! Claims C9 and C10: playback. -/

theorem shipInv_pause {s : ShipState} (h : ShipInv s) :
    ShipInv (pauseShipmentTimeline s).1 := by
  rcases h with ⟨hi, ht⟩ | ⟨t, hi, ht, hp⟩
  · left
    simp [pauseShipmentTimeline, hi, ht]
  · left
    simp [pauseShipmentTimeline, hi, ht]

theorem shipInv_stop {s : ShipState} (h : ShipInv s) :
    ShipInv (stopShipmentTimeline s).1 := by
  rcases h with ⟨hi, ht⟩ | ⟨t, hi, ht, hp⟩
  · left
    simp [stopShipmentTimeline, hi, ht]
  · left
    simp [stopShipmentTimeline, hi, ht]

theorem shipInv_step {s s' : ShipState} (h : ShipInv s) (st : ShipStep s s') :
    ShipInv s' := by
  cases st with
  | play tf n fresh s =>
    unfold playShipmentTimeline
    split
    · exact h
    · split
      · exact h
      · split
        · exact h
        · split
          · exact h
          · next h4 =>
            rcases h with ⟨hi, ht⟩ | ⟨t, hi, ht, hp⟩
            · right
              exact ⟨fresh, rfl, by simp [ht], rfl⟩
            · exact absurd hp h4
  | pause s => exact shipInv_pause h
  | stop s => exact shipInv_stop h
  | tick n s =>
    unfold shipTick
    split
    · rcases h with ⟨hi, ht⟩ | ⟨t, hi, ht, hp⟩
      · exact Or.inl ⟨hi, ht⟩
      · exact Or.inr ⟨t, hi, ht, hp⟩
    · exact shipInv_pause h
  | setc cid s =>
    rcases h with ⟨hi, ht⟩ | ⟨t, hi, ht, hp⟩
    · exact Or.inl ⟨hi, ht⟩
    · exact Or.inr ⟨t, hi, ht, hp⟩

theorem shipReachable_inv {s : ShipState} (h : ShipReachable s) : ShipInv s := by
  induction h with
  | refl => exact Or.inl ⟨rfl, rfl⟩
  | tail _ st ih => exact shipInv_step ih st

theorem vizInv_pause {s : VizState} (h : VizInv s) : VizInv (TimelineViz.pause s) := by
  obtain ⟨p, i, t, a, e⟩ := s
  rcases h with ht | ⟨t', hi, ht, hp⟩
  · simp only at ht
    subst ht
    unfold TimelineViz.pause
    cases t <;> simp [VizInv]
  · simp only at hi ht hp
    subst hi
    subst ht
    subst hp
    left
    simp [TimelineViz.pause]

theorem vizInv_stop {s : VizState} (h : VizInv s) : VizInv (TimelineViz.stop s) := by
  have h2 := vizInv_pause h
  unfold TimelineViz.stop
  rcases h2 with ht | ⟨t, hi, ht, hp⟩
  · left
    simp [ht]
  · right
    exact ⟨t, by simp [hi], by simp [ht], by simp [hp]⟩

theorem vizInv_step {s s' : VizState} (h : VizInv s) (st : VizStep s s') : VizInv s' := by
  cases st with
  | play fresh s =>
    unfold TimelineViz.play
    split
    · exact h
    · next h4 =>
      rcases h with ht | ⟨t, hi, ht, hp⟩
      · right
        exact ⟨fresh, rfl, by simp [ht], rfl⟩
      · exact absurd hp h4
  | pause s => exact vizInv_pause h
  | stop s => exact vizInv_stop h
  | tick s =>
    unfold TimelineViz.tick
    split
    · exact vizInv_stop h
    · rcases h with ht | ⟨t, hi, ht, hp⟩
      · exact Or.inl ht
      · exact Or.inr ⟨t, hi, ht, hp⟩

theorem vizReachable_inv {n : Nat} {s : VizState} (h : VizReachable n s) : VizInv s := by
  induction h with
  | refl => exact Or.inl rfl
  | tail _ st ih => exact vizInv_step ih st

theorem shipInv_timers_le_one {s : ShipState} (h : ShipInv s) :
    s.activeTimers.length ≤ 1 := by
  rcases h with ⟨-, ht⟩ | ⟨t, -, ht, -⟩ <;> simp [ht]

theorem vizInv_timers_le_one {s : VizState} (h : VizInv s) :
    s.activeTimers.length ≤ 1 := by
  rcases h with ht | ⟨t, -, ht, -⟩ <;> simp [ht]

/-- C9: calling play while playback is already running is a no-op for both
playback implementations (no state change, hence no second timer and an
unchanged position), and in every reachable state at most one playback
timer is active per instance. -/
theorem play_idempotent_single_timer :
    (∀ tf n f (s : ShipState), s.isPlaying = true →
        (playShipmentTimeline tf n f s).1 = s) ∧
    (∀ f (s : VizState), s.isPlaying = true → TimelineViz.play f s = s) ∧
    (∀ s, ShipReachable s → s.activeTimers.length ≤ 1) ∧
    (∀ n s, VizReachable n s → s.activeTimers.length ≤ 1) := by
  refine ⟨?_, ?_, ?_, ?_⟩
  · intro tf n f s hp
    unfold playShipmentTimeline
    split_ifs with h1 h2 h3
    · rfl
    · rfl
    · rfl
    · rfl
  · intro f s hp
    simp [TimelineViz.play, hp]
  · intro s h
    exact shipInv_timers_le_one (shipReachable_inv h)
  · intro n s h
    exact vizInv_timers_le_one (vizReachable_inv h)

/-- C9 witness: concrete already-playing states are left unchanged by play,
and the initial states have at most one (zero) active timer. -/
theorem play_idempotent_single_timer_witness :
    ((⟨some "c", true, 1, some 5, [5]⟩ : ShipState).isPlaying = true) ∧
    (playShipmentTimeline true 3 7 ⟨some "c", true, 1, some 5, [5]⟩).1
      = ⟨some "c", true, 1, some 5, [5]⟩ ∧
    TimelineViz.play 7 ⟨true, 2, some 4, [4], 9⟩ = ⟨true, 2, some 4, [4], 9⟩ ∧
    shipInit.activeTimers.length ≤ 1 ∧
    (vizInit 3).activeTimers.length ≤ 1 :=
  ⟨rfl, play_idempotent_single_timer.1 true 3 7 _ rfl,
   play_idempotent_single_timer.2.1 7 _ rfl,
   play_idempotent_single_timer.2.2.1 shipInit Relation.ReflTransGen.refl,
   play_idempotent_single_timer.2.2.2 3 (vizInit 3) Relation.ReflTransGen.refl⟩

/-- C10: a TimelineViz.play call that actually starts playback resets the
playback index to 0 before starting the timer; pause leaves the index
unchanged; hence pause followed by play restarts from the first event. -/
theorem vizPlay_resets_index :
    (∀ f (s : VizState), s.isPlaying = false →
        (TimelineViz.play f s).playbackIndex = 0 ∧
          (TimelineViz.play f s).isPlaying = true) ∧
    (∀ s, (TimelineViz.pause s).playbackIndex = s.playbackIndex) ∧
    (∀ f s, (TimelineViz.play f (TimelineViz.pause s)).playbackIndex = 0) := by
  have hpause_index : ∀ s : VizState,
      (TimelineViz.pause s).playbackIndex = s.playbackIndex := by
    intro s
    unfold TimelineViz.pause
    cases s.playbackTimer <;> rfl
  have hpause_stopped : ∀ s : VizState, (TimelineViz.pause s).isPlaying = false := by
    intro s
    unfold TimelineViz.pause
    cases s.playbackTimer <;> rfl
  refine ⟨?_, hpause_index, ?_⟩
  · intro f s hp
    constructor <;> simp [TimelineViz.play, hp]
  · intro f s
    simp [TimelineViz.play, hpause_stopped s]

/-- C10 witness: from a concrete paused state at index 7, play restarts at
index 0. -/
theorem vizPlay_resets_index_witness :
    ((⟨false, 7, some 3, [], 9⟩ : VizState).isPlaying = false) ∧
    (TimelineViz.play 8 ⟨false, 7, some 3, [], 9⟩).playbackIndex = 0 ∧
    (TimelineViz.play 8 ⟨false, 7, some 3, [], 9⟩).isPlaying = true ∧
    (TimelineViz.play 8 (TimelineViz.pause ⟨true, 7, some 3, [3], 9⟩)).playbackIndex = 0 :=
  ⟨rfl, (vizPlay_resets_index.1 8 _ rfl).1, (vizPlay_resets_index.1 8 _ rfl).2,
   vizPlay_resets_index.2.2 8 ⟨true, 7, some 3, [3], 9⟩⟩

/-! Shortest-path BFS: adjacency and expansion lemmas. -/

theorem adjacent_symm {links : List Link} {a b : String} (h : adjacent links a b) :
    adjacent links b a := by
  obtain ⟨l, hl, h⟩ := h
  exact ⟨l, hl, by tauto⟩

theorem head?_cons_inj {c c₀ : String} {t : List String}
    (h : (c :: t).head? = some c₀) : c₀ = c := by
  simp only [List.head?_cons, Option.some.injEq] at h
  exact h.symm

theorem expand_visited_eq (c : String) : ∀ (ls : List Link) (v : List String),
    (expand c v ls).1 = (expand c v ls).2.reverse ++ v
  | [], v => rfl
  | l :: ls, v => by
    simp only [expand]
    by_cases h1 : l.source = c ∧ l.target ∉ v
    · rw [if_pos h1]
      simp only
      rw [expand_visited_eq c ls (l.target :: v)]
      simp
    · rw [if_neg h1]
      by_cases h2 : l.target = c ∧ l.source ∉ v
      · rw [if_pos h2]
        simp only
        rw [expand_visited_eq c ls (l.source :: v)]
        simp
      · rw [if_neg h2]
        exact expand_visited_eq c ls v

theorem expand_mem (c : String) (ls : List Link) (v : List String) (x : String) :
    x ∈ (expand c v ls).1 ↔ x ∈ (expand c v ls).2 ∨ x ∈ v := by
  rw [expand_visited_eq]
  simp [List.mem_append]

theorem expand_mono {c : String} {ls : List Link} {v : List String} {x : String}
    (h : x ∈ v) : x ∈ (expand c v ls).1 := (expand_mem c ls v x).mpr (Or.inr h)

theorem expand_new_prop (c : String) : ∀ (ls : List Link) (v : List String),
    (expand c v ls).2.Nodup ∧ ∀ n ∈ (expand c v ls).2, n ∉ v ∧
      ∃ l ∈ ls, (l.source = c ∧ l.target = n) ∨ (l.target = c ∧ l.source = n)
  | [], v => by simp [expand]
  | l :: ls, v => by
    simp only [expand]
    by_cases h1 : l.source = c ∧ l.target ∉ v
    · rw [if_pos h1]
      simp only
      obtain ⟨hnd, hprop⟩ := expand_new_prop c ls (l.target :: v)
      constructor
      · rw [List.nodup_cons]
        refine ⟨fun hmem => ?_, hnd⟩
        exact (hprop _ hmem).1 (List.mem_cons_self _ _)
      · intro n hn
        rcases List.mem_cons.mp hn with rfl | hn
        · exact ⟨h1.2, l, List.mem_cons_self _ _, Or.inl ⟨h1.1, rfl⟩⟩
        · obtain ⟨hnv, l', hl', hw⟩ := hprop n hn
          exact ⟨fun hv => hnv (List.mem_cons_of_mem _ hv),
                 l', List.mem_cons_of_mem _ hl', hw⟩
    · rw [if_neg h1]
      by_cases h2 : l.target = c ∧ l.source ∉ v
      · rw [if_pos h2]
        simp only
        obtain ⟨hnd, hprop⟩ := expand_new_prop c ls (l.source :: v)
        constructor
        · rw [List.nodup_cons]
          refine ⟨fun hmem => ?_, hnd⟩
          exact (hprop _ hmem).1 (List.mem_cons_self _ _)
        · intro n hn
          rcases List.mem_cons.mp hn with rfl | hn
          · exact ⟨h2.2, l, List.mem_cons_self _ _, Or.inr ⟨h2.1, rfl⟩⟩
          · obtain ⟨hnv, l', hl', hw⟩ := hprop n hn
            exact ⟨fun hv => hnv (List.mem_cons_of_mem _ hv),
                   l', List.mem_cons_of_mem _ hl', hw⟩
      · rw [if_neg h2]
        obtain ⟨hnd, hprop⟩ := expand_new_prop c ls v
        refine ⟨hnd, fun n hn => ?_⟩
        obtain ⟨hnv, l', hl', hw⟩ := hprop n hn
        exact ⟨hnv, l', List.mem_cons_of_mem _ hl', hw⟩

theorem expand_covers (c w : String) : ∀ (ls : List Link) (v : List String), c ∈ v →
    (∃ l ∈ ls, (l.source = c ∧ l.target = w) ∨ (l.target = c ∧ l.source = w)) →
    w ∈ (expand c v ls).1
  | [], v, hc, hex => by
    obtain ⟨l, hl, -⟩ := hex
    exact absurd hl (List.not_mem_nil l)
  | l :: ls, v, hc, hex => by
    by_cases hwv : w ∈ v
    · exact expand_mono hwv
    obtain ⟨l', hl', hw⟩ := hex
    rcases List.mem_cons.mp hl' with rfl | hl's
    · rcases hw with ⟨hs, ht⟩ | ⟨ht, hs⟩
      · have h1 : l'.source = c ∧ l'.target ∉ v := ⟨hs, by rw [ht]; exact hwv⟩
        simp only [expand, if_pos h1]
        exact expand_mono (by rw [ht]; exact List.mem_cons_self _ _)
      · have h1 : ¬(l'.source = c ∧ l'.target ∉ v) := by
          rintro ⟨-, htv⟩
          exact htv (ht ▸ hc)
        have h2 : l'.target = c ∧ l'.source ∉ v := ⟨ht, by rw [hs]; exact hwv⟩
        simp only [expand, if_neg h1, if_pos h2]
        exact expand_mono (by rw [hs]; exact List.mem_cons_self _ _)
    · simp only [expand]
      by_cases h1 : l.source = c ∧ l.target ∉ v
      · rw [if_pos h1]
        simp only
        exact expand_covers c w ls (l.target :: v)
          (List.mem_cons_of_mem _ hc) ⟨l', hl's, hw⟩
      · rw [if_neg h1]
        by_cases h2 : l.target = c ∧ l.source ∉ v
        · rw [if_pos h2]
          simp only
          exact expand_covers c w ls (l.source :: v)
            (List.mem_cons_of_mem _ hc) ⟨l', hl's, hw⟩
        · rw [if_neg h2]
          exact expand_covers c w ls v hc ⟨l', hl's, hw⟩

theorem mem_endIds {links : List Link} {l : Link} (hl : l ∈ links) :
    l.source ∈ endIds links ∧ l.target ∈ endIds links := by
  constructor
  · simp only [endIds, List.mem_toFinset, List.mem_append, List.mem_map]
    exact Or.inl ⟨l, hl, rfl⟩
  · simp only [endIds, List.mem_toFinset, List.mem_append, List.mem_map]
    exact Or.inr ⟨l, hl, rfl⟩

theorem expand_card (links : List Link) (c : String) (v : List String) :
    ((endIds links) \ (expand c v links).1.toFinset).card
      + (expand c v links).2.length
      = ((endIds links) \ v.toFinset).card := by
  obtain ⟨hnd, hprop⟩ := expand_new_prop c links v
  have hsub : (expand c v links).2.toFinset ⊆ endIds links \ v.toFinset := by
    intro x hx
    rw [List.mem_toFinset] at hx
    obtain ⟨hxv, l, hl, hw⟩ := hprop x hx
    rw [Finset.mem_sdiff]
    refine ⟨?_, by simpa [List.mem_toFinset] using hxv⟩
    rcases hw with ⟨-, h2⟩ | ⟨-, h2⟩
    · exact h2 ▸ (mem_endIds hl).2
    · exact h2 ▸ (mem_endIds hl).1
  have h1 : (expand c v links).1.toFinset
      = (expand c v links).2.toFinset ∪ v.toFinset := by
    rw [expand_visited_eq]
    simp [List.toFinset_append]
  have h2 : (endIds links) \ (expand c v links).1.toFinset
      = ((endIds links) \ v.toFinset) \ (expand c v links).2.toFinset := by
    rw [h1]
    ext x
    simp only [Finset.mem_sdiff, Finset.mem_union]
    tauto
  have h3 : (expand c v links).2.toFinset.card = (expand c v links).2.length :=
    List.toFinset_card_of_nodup hnd
  have h4 := Finset.card_sdiff hsub
  have h5 := Finset.card_le_card hsub
  rw [h2, h4, h3]
  rw [h3] at h5
  omega

theorem bfsMeasure_step (links : List Link) (rp : List String)
    (rest : List (List String)) (c : String) (v : List String)
    (f : String → List String) :
    bfsMeasure links (rest ++ (expand c v links).2.map f) (expand c v links).1
      < bfsMeasure links (rp :: rest) v := by
  have h := expand_card links c v
  simp only [bfsMeasure, List.length_append, List.length_map, List.length_cons]
  omega

theorem bfsMeasure_skip (links : List Link) (rp : List String)
    (rest : List (List String)) (v : List String) :
    bfsMeasure links rest v < bfsMeasure links (rp :: rest) v := by
  simp only [bfsMeasure, List.length_cons]
  omega

/-! Shortest-path BFS: path lemmas and soundness. -/

theorem IsPath.nonempty {links : List Link} {a b : String} {p : List String}
    (h : IsPath links a b p) : p ≠ [] := by
  intro he
  rw [he] at h
  simpa [IsPath] using h.1

theorem isPath_self (links : List Link) (a : String) : IsPath links a a [a] :=
  ⟨rfl, rfl, List.chain'_singleton a⟩

theorem IsPath.snoc {links : List Link} {a b n : String} {p : List String}
    (h : IsPath links a b p) (hadj : adjacent links b n) :
    IsPath links a n (p ++ [n]) := by
  obtain ⟨h1, h2, h3⟩ := h
  obtain ⟨x, t, rfl⟩ : ∃ x t, p = x :: t := by
    cases p with
    | nil => simp at h1
    | cons x t => exact ⟨x, t, rfl⟩
  refine ⟨by simpa using h1, ?_, ?_⟩
  · show ((x :: t) ++ [n]).getLast? = some n
    exact List.getLast?_concat _
  rw [List.chain'_append]
  refine ⟨h3, List.chain'_singleton n, ?_⟩
  intro y hy z hz
  simp only [List.head?_cons, Option.mem_def, Option.some.injEq] at hz
  subst hz
  rw [h2] at hy
  simp only [Option.mem_def, Option.some.injEq] at hy
  subst hy
  exact hadj

theorem bfsAux_sound (links : List Link) (A B : String) :
    ∀ (fuel : Nat) (q : List (List String)) (v : List String) (p : List String),
      QueueOK links A q → bfsAux links B fuel q v = some p → IsPath links A B p := by
  intro fuel
  induction fuel with
  | zero =>
    intro q v p _ h
    simp [bfsAux] at h
  | succ f ih =>
    intro q v p hq h
    cases q with
    | nil => simp [bfsAux] at h
    | cons rp rest =>
      cases rp with
      | nil =>
        rw [bfsAux] at h
        exact ih rest _ p (fun rp' h' => hq rp' (List.mem_cons_of_mem _ h')) h
      | cons c rp' =>
        rw [bfsAux] at h
        by_cases hc : c = B
        · rw [if_pos hc] at h
          obtain ⟨c₀, hc₀, hpath⟩ := hq (c :: rp') (List.mem_cons_self _ _)
          rw [head?_cons_inj hc₀] at hpath
          obtain rfl : (c :: rp').reverse = p := Option.some.inj h
          exact hc ▸ hpath
        · rw [if_neg hc] at h
          refine ih _ _ p ?_ h
          intro rp'' hmem
          rw [List.mem_append] at hmem
          rcases hmem with hmem | hmem
          · exact hq rp'' (List.mem_cons_of_mem _ hmem)
          · rw [List.mem_map] at hmem
            obtain ⟨n, hn, rfl⟩ := hmem
            obtain ⟨c₀, hc₀, hpath⟩ := hq (c :: rp') (List.mem_cons_self _ _)
            rw [head?_cons_inj hc₀] at hpath
            have hadj : adjacent links c n := by
              obtain ⟨-, l, hl, hw⟩ := (expand_new_prop c links v).2 n hn
              exact ⟨l, hl, hw⟩
            refine ⟨n, rfl, ?_⟩
            rw [List.reverse_cons]
            exact hpath.snoc hadj

/-! Shortest-path BFS: reachability and path decomposition lemmas. -/

theorem pairwise_of_forall {α : Type} {R : α → α → Prop} (h : ∀ a b, R a b) :
    ∀ l : List α, l.Pairwise R
  | [] => List.Pairwise.nil
  | x :: t => List.Pairwise.cons (fun b _ => h x b) (pairwise_of_forall h t)

theorem path_exits {links : List Link} {v : List String} :
    ∀ (p : List String) (a b : String), IsPath links a b p → a ∈ v → b ∉ v →
      ∃ u, u ∈ v ∧ ∃ w, w ∉ v ∧ adjacent links u w
  | [], a, b, h, _, _ => absurd rfl h.nonempty
  | [x], a, b, h, hav, hbv => by
    obtain ⟨h1, h2, -⟩ := h
    have hxa : x = a := by simpa using h1
    have hxb : x = b := by simpa using h2
    exact absurd ((hxa.symm.trans hxb) ▸ hav) hbv
  | x :: y :: t, a, b, h, hav, hbv => by
    obtain ⟨h1, h2, h3⟩ := h
    have hxa : x = a := by simpa using h1
    by_cases hyv : y ∈ v
    · have hpath : IsPath links y b (y :: t) := by
        refine ⟨rfl, ?_, (List.chain'_cons.mp h3).2⟩
        rw [List.getLast?_cons_cons] at h2
        exact h2
      exact path_exits (y :: t) y b hpath hyv hbv
    · exact ⟨a, hav, y, hyv, hxa ▸ (List.chain'_cons.mp h3).1⟩

theorem bfsInv_queue_ne_nil {links : List Link} {A B : String}
    {q : List (List String)} {v : List String}
    (inv : BfsInv links A B q v) (hreach : ∃ p, IsPath links A B p) : q ≠ [] := by
  intro hq
  subst hq
  by_cases hB : B ∈ v
  · obtain ⟨rp, hrp, -⟩ := inv.targetPending hB
    exact absurd hrp (List.not_mem_nil rp)
  · obtain ⟨p, hp⟩ := hreach
    obtain ⟨u, huv, w, hwv, hadj⟩ := path_exits p A B hp inv.srcVis hB
    rcases inv.pendingOrDone u huv with ⟨rp, hrp, -⟩ | hdone
    · exact absurd hrp (List.not_mem_nil rp)
    · exact hwv (hdone w hadj)

theorem isPath_length_one {links : List Link} {a u : String} {p : List String}
    (h : IsPath links a u p) (hlen : p.length ≤ 1) : u = a := by
  obtain ⟨h1, h2, -⟩ := h
  cases p with
  | nil => simp at h1
  | cons x t =>
    cases t with
    | nil =>
      have hxa : x = a := by simpa using h1
      have hxu : x = u := by simpa using h2
      rw [← hxu, hxa]
    | cons y t' => simp at hlen

theorem IsPath.unsnoc {links : List Link} {a u : String} {p : List String}
    (h : IsPath links a u p) (hlen : 2 ≤ p.length) :
    ∃ p₁ w, p = p₁ ++ [u] ∧ IsPath links a w p₁ ∧ adjacent links w u := by
  obtain ⟨h1, h2, h3⟩ := h
  have hrev : p.reverse.head? = some u := by rw [List.head?_reverse]; exact h2
  obtain ⟨u', rt, hrt⟩ : ∃ u' rt, p.reverse = u' :: rt := by
    cases hr : p.reverse with
    | nil => rw [hr] at hrev; simp at hrev
    | cons u' rt => exact ⟨u', rt, rfl⟩
  have hu' : u' = u := by rw [hrt] at hrev; simpa using hrev
  rw [hu'] at hrt
  obtain ⟨w, t, rfl⟩ : ∃ w t, rt = w :: t := by
    cases rt with
    | nil =>
      exfalso
      have hl1 : p.length = 1 := by
        rw [← List.length_reverse, hrt]
        rfl
      omega
    | cons w t => exact ⟨w, t, rfl⟩
  have hp : p = (w :: t).reverse ++ [u] := by
    have hrr := congrArg List.reverse hrt
    rw [List.reverse_reverse] at hrr
    rw [hrr, List.reverse_cons]
  obtain ⟨z, zs, hq⟩ : ∃ z zs, (w :: t).reverse = z :: zs := by
    cases hrev2 : (w :: t).reverse with
    | nil => exact absurd (congrArg List.length hrev2) (by simp)
    | cons z zs => exact ⟨z, zs, rfl⟩
  refine ⟨(w :: t).reverse, w, hp, ⟨?_, ?_, ?_⟩, ?_⟩
  · have hz : p.head? = some z := by
      rw [hp, hq]
      rfl
    rw [h1] at hz
    rw [hq]
    simp only [List.head?_cons]
    exact hz.symm
  · rw [List.getLast?_reverse]
    rfl
  · rw [hp] at h3
    exact (List.chain'_append.mp h3).1
  · rw [hp] at h3
    have hrel := (List.chain'_append.mp h3).2.2
    apply hrel w ?_ u rfl
    show ((w :: t).reverse).getLast? = some w
    rw [List.getLast?_reverse]
    rfl

/-! Shortest-path BFS: invariant preservation over one loop step. -/

theorem bfsInv_step {links : List Link} {A B c : String} {rp' : List String}
    {rest : List (List String)} {v : List String}
    (inv : BfsInv links A B ((c :: rp') :: rest) v) (hcB : c ≠ B) :
    BfsInv links A B
      (rest ++ (expand c v links).2.map (fun n => n :: (c :: rp')))
      (expand c v links).1 := by
  have hcv : c ∈ v := inv.headsVis _ (List.mem_cons_self _ _) c rfl
  have hpath_rp : IsPath links A c (c :: rp').reverse := by
    obtain ⟨c₀, hc₀, hp⟩ := inv.valid _ (List.mem_cons_self _ _)
    rw [head?_cons_inj hc₀] at hp
    exact hp
  obtain ⟨hnd, hprop⟩ := expand_new_prop c links v
  have hadjn : ∀ n ∈ (expand c v links).2, adjacent links c n := by
    intro n hn
    obtain ⟨-, l, hl, hw⟩ := hprop n hn
    exact ⟨l, hl, hw⟩
  have hnotv : ∀ n ∈ (expand c v links).2, n ∉ v := fun n hn => (hprop n hn).1
  have hcover_c : ∀ w, adjacent links c w → w ∈ (expand c v links).1 := by
    intro w hw
    exact expand_covers c w links v hcv hw
  refine ⟨?_, ?_, ?_, ?_, ?_, ?_, ?_, ?_, ?_⟩
  · -- valid
    intro rp'' h
    rcases List.mem_append.mp h with h | h
    · exact inv.valid rp'' (List.mem_cons_of_mem _ h)
    · obtain ⟨n, hn, rfl⟩ := List.mem_map.mp h
      refine ⟨n, rfl, ?_⟩
      rw [List.reverse_cons]
      exact hpath_rp.snoc (hadjn n hn)
  · -- headsVis
    intro rp'' h c₀ hc₀
    rcases List.mem_append.mp h with h | h
    · exact expand_mono (inv.headsVis rp'' (List.mem_cons_of_mem _ h) c₀ hc₀)
    · obtain ⟨n, hn, rfl⟩ := List.mem_map.mp h
      rw [head?_cons_inj hc₀]
      exact (expand_mem c links v n).mpr (Or.inl hn)
  · -- srcVis
    exact expand_mono inv.srcVis
  · -- pendingOrDone
    intro u hu
    rcases (expand_mem c links v u).mp hu with hu | hu
    · exact Or.inl ⟨u :: (c :: rp'),
        List.mem_append_right _ (List.mem_map.mpr ⟨u, hu, rfl⟩), rfl⟩
    · rcases inv.pendingOrDone u hu with ⟨rp₀, hrp₀, hhead⟩ | hdone
      · rcases List.mem_cons.mp hrp₀ with rfl | hrest
        · have huc : u = c := head?_cons_inj hhead
          subst huc
          exact Or.inr fun w hw => hcover_c w hw
        · exact Or.inl ⟨rp₀, List.mem_append_left _ hrest, hhead⟩
      · exact Or.inr fun w hw => expand_mono (hdone w hw)
  · -- targetPending
    intro hBv
    rcases (expand_mem c links v B).mp hBv with hB | hB
    · exact ⟨B :: (c :: rp'),
        List.mem_append_right _ (List.mem_map.mpr ⟨B, hB, rfl⟩), rfl⟩
    · obtain ⟨rp₀, hrp₀, hhead⟩ := inv.targetPending hB
      rcases List.mem_cons.mp hrp₀ with rfl | hrest
      · exact absurd (head?_cons_inj hhead).symm hcB
      · exact ⟨rp₀, List.mem_append_left _ hrest, hhead⟩
  · -- sorted
    rw [List.pairwise_append]
    refine ⟨(List.pairwise_cons.mp inv.sorted).2, ?_, ?_⟩
    · rw [List.pairwise_map]
      exact pairwise_of_forall (fun a b => le_refl _) _
    · intro x hx y hy
      obtain ⟨n, -, rfl⟩ := List.mem_map.mp hy
      have := inv.within1 x (List.mem_cons_of_mem _ hx) (c :: rp')
        (List.mem_cons_self _ _)
      simpa using this
  · -- within1
    intro x hx y hy
    rcases List.mem_append.mp hx with hx | hx <;> rcases List.mem_append.mp hy with hy | hy
    · exact inv.within1 x (List.mem_cons_of_mem _ hx) y (List.mem_cons_of_mem _ hy)
    · obtain ⟨n, -, rfl⟩ := List.mem_map.mp hy
      have := inv.within1 x (List.mem_cons_of_mem _ hx) (c :: rp')
        (List.mem_cons_self _ _)
      simp only [List.length_cons] at this ⊢
      omega
    · obtain ⟨n, -, rfl⟩ := List.mem_map.mp hx
      have := (List.pairwise_cons.mp inv.sorted).1 y hy
      simp only [List.length_cons] at this ⊢
      omega
    · obtain ⟨n, -, rfl⟩ := List.mem_map.mp hx
      obtain ⟨m, -, rfl⟩ := List.mem_map.mp hy
      simp only [List.length_cons]
      omega
  · -- shortest
    intro x hx c₀ hc₀ p hp
    rcases List.mem_append.mp hx with hx | hx
    · exact inv.shortest x (List.mem_cons_of_mem _ hx) c₀ hc₀ p hp
    · obtain ⟨n, hn, rfl⟩ := List.mem_map.mp hx
      have hc₀n : c₀ = n := head?_cons_inj hc₀
      rw [hc₀n] at hp
      by_contra hlt
      push_neg at hlt
      have hshort : p.length ≤ (c :: rp').length := by
        simp only [List.length_cons] at hlt ⊢
        omega
      exact hnotv n hn (inv.cover (c :: rp') rfl n p hp hshort)
  · -- cover
    intro rp₀ hrp₀ u p hp hlen
    by_cases hshort : p.length ≤ (c :: rp').length
    · exact expand_mono (inv.cover (c :: rp') rfl u p hp hshort)
    · push_neg at hshort
      have hrp₀mem : rp₀ ∈ rest ++ (expand c v links).2.map (fun n => n :: (c :: rp')) := by
        cases hq : rest ++ (expand c v links).2.map (fun n => n :: (c :: rp')) with
        | nil => rw [hq] at hrp₀; simp at hrp₀
        | cons r rs =>
          rw [hq] at hrp₀
          simp only [List.head?_cons, Option.some.injEq] at hrp₀
          rw [← hrp₀]
          exact List.mem_cons_self _ _
      have hrp₀len : rp₀.length ≤ (c :: rp').length + 1 := by
        rcases List.mem_append.mp hrp₀mem with hr | hn
        · exact inv.within1 rp₀ (List.mem_cons_of_mem _ hr) (c :: rp')
            (List.mem_cons_self _ _)
        · obtain ⟨n, -, rfl⟩ := List.mem_map.mp hn
          simp
      have hplen : p.length = (c :: rp').length + 1 := by omega
      have h2le : 2 ≤ p.length := by
        simp only [List.length_cons] at hplen
        omega
      obtain ⟨p₁, w, hpeq, hp₁, hadj_wu⟩ := hp.unsnoc h2le
      have hp₁len : p₁.length = (c :: rp').length := by
        have hlen2 := congrArg List.length hpeq
        rw [List.length_append] at hlen2
        simp only [List.length_singleton] at hlen2
        omega
      have hwv : w ∈ v := inv.cover (c :: rp') rfl w p₁ hp₁ (le_of_eq hp₁len)
      rcases inv.pendingOrDone w hwv with ⟨rp_w, hrp_w, hhead_w⟩ | hdone
      · rcases List.mem_cons.mp hrp_w with rfl | hrest_w
        · have hwc : w = c := head?_cons_inj hhead_w
          exact hcover_c u (hwc ▸ hadj_wu)
        · exfalso
          have hw_short : rp_w.length ≤ p₁.length :=
            inv.shortest rp_w (List.mem_cons_of_mem _ hrest_w) w hhead_w p₁ hp₁
          cases hrest : rest with
          | nil =>
            rw [hrest] at hrest_w
            exact absurd hrest_w (List.not_mem_nil _)
          | cons r₀ rest' =>
            have hr₀eq : r₀ = rp₀ := by
              rw [hrest] at hrp₀
              simpa using hrp₀
            have hr₀w : r₀.length ≤ rp_w.length := by
              rw [hrest] at hrest_w
              rcases List.mem_cons.mp hrest_w with rfl | hw'
              · exact le_refl _
              · have hrest_sorted := (List.pairwise_cons.mp inv.sorted).2
                rw [hrest] at hrest_sorted
                exact (List.pairwise_cons.mp hrest_sorted).1 rp_w hw'
            rw [hr₀eq] at hr₀w
            omega
      · exact expand_mono (hdone u hadj_wu)

/-! Shortest-path BFS: main loop theorem and claims. -/

theorem bfsInv_init (links : List Link) (A B : String) :
    BfsInv links A B [[A]] [A] := by
  refine ⟨?_, ?_, ?_, ?_, ?_, ?_, ?_, ?_, ?_⟩
  · intro rp h
    rw [List.mem_singleton] at h
    subst h
    exact ⟨A, rfl, isPath_self links A⟩
  · intro rp h c₀ hc₀
    rw [List.mem_singleton] at h
    subst h
    rw [head?_cons_inj hc₀]
    exact List.mem_cons_self _ _
  · exact List.mem_cons_self _ _
  · intro u hu
    rw [List.mem_singleton] at hu
    subst hu
    exact Or.inl ⟨[u], List.mem_cons_self _ _, rfl⟩
  · intro hB
    rw [List.mem_singleton] at hB
    subst hB
    exact ⟨[B], List.mem_cons_self _ _, rfl⟩
  · exact List.pairwise_singleton _ _
  · intro rp h rp'' h''
    rw [List.mem_singleton] at h h''
    subst h
    subst h''
    simp
  · intro rp h c₀ hc₀ p hp
    rw [List.mem_singleton] at h
    subst h
    have hne := hp.nonempty
    cases p with
    | nil => exact absurd rfl hne
    | cons x t => simp
  · intro rp₀ h u p hp hlen
    have hrp₀ : rp₀ = [A] := by simpa using h.symm
    subst hrp₀
    rw [isPath_length_one hp (by simpa using hlen)]
    exact List.mem_cons_self _ _

theorem bfsAux_completeMin (links : List Link) (A B : String) :
    ∀ (fuel : Nat) (q : List (List String)) (v : List String),
      bfsMeasure links q v ≤ fuel → BfsInv links A B q v →
      (∃ p₀, IsPath links A B p₀) →
      ∃ p, bfsAux links B fuel q v = some p ∧ IsPath links A B p ∧
        ∀ p', IsPath links A B p' → p.length ≤ p'.length := by
  intro fuel
  induction fuel with
  | zero =>
    intro q v hm inv hreach
    exfalso
    have hne := bfsInv_queue_ne_nil inv hreach
    have hq0 : q.length = 0 := by
      simp only [bfsMeasure] at hm
      omega
    exact hne (List.length_eq_zero.mp hq0)
  | succ f ih =>
    intro q v hm inv hreach
    cases q with
    | nil => exact absurd rfl (bfsInv_queue_ne_nil inv hreach)
    | cons rp rest =>
      cases rp with
      | nil =>
        obtain ⟨c₀, hc₀, -⟩ := inv.valid [] (List.mem_cons_self _ _)
        simp at hc₀
      | cons c rp' =>
        by_cases hc : c = B
        · subst hc
          refine ⟨(c :: rp').reverse, ?_, ?_, ?_⟩
          · rw [bfsAux, if_pos rfl]
          · obtain ⟨c₀, hc₀, hp⟩ := inv.valid _ (List.mem_cons_self _ _)
            rw [head?_cons_inj hc₀] at hp
            exact hp
          · intro p' hp'
            have hs := inv.shortest _ (List.mem_cons_self _ _) _ rfl p' hp'
            simpa using hs
        · have hstep := bfsInv_step inv hc
          have hmeas := bfsMeasure_step links (c :: rp') rest c v
            (fun n => n :: (c :: rp'))
          have hm' : bfsMeasure links
              (rest ++ (expand c v links).2.map (fun n => n :: (c :: rp')))
              (expand c v links).1 ≤ f := by omega
          obtain ⟨p, hbfs, hpath, hmin⟩ := ih _ _ hm' hstep hreach
          refine ⟨p, ?_, hpath, hmin⟩
          rw [bfsAux, if_neg hc]
          exact hbfs

theorem bfsMeasure_init (links : List Link) (A : String) :
    bfsMeasure links [[A]] [A] ≤ 4 * links.length + 1 := by
  have h1 : (endIds links).card ≤ 2 * links.length := by
    have h := List.toFinset_card_le (links.map Link.source ++ links.map Link.target)
    simp only [List.length_append, List.length_map] at h
    show (links.map Link.source ++ links.map Link.target).toFinset.card
      ≤ 2 * links.length
    omega
  have h2 : ((endIds links) \ ([A] : List String).toFinset).card
      ≤ (endIds links).card := Finset.card_le_card Finset.sdiff_subset
  simp only [bfsMeasure, List.length_singleton]
  omega

/-- C5: for two node ids present in the model and connected through the
undirected adjacency of the links, findShortestPath returns an ordered id
sequence that starts at the source, ends at the target, steps only along
links, and is as short (in nodes, hence in hops, the length minus one) as
every other such path. -/
theorem findShortestPath_minimal (nodes : List NodeRec) (links : List Link)
    (A B : String) (hA : A ∈ nodeIds nodes) (hB : B ∈ nodeIds nodes)
    (hconn : ∃ p, IsPath links A B p) :
    ∃ p, findShortestPath links A B = some p ∧ IsPath links A B p ∧
      ∀ p', IsPath links A B p' → p.length ≤ p'.length :=
  bfsAux_completeMin links A B (4 * links.length + 1) [[A]] [A]
    (bfsMeasure_init links A) (bfsInv_init links A B) hconn

/-- C5 witness: in the two-link graph a - b - c with nodes a, b, c the
search returns a minimal path from a to c. -/
theorem findShortestPath_minimal_witness :
    ("a" ∈ nodeIds [⟨some "a", none, none, none, none⟩,
        ⟨some "b", none, none, none, none⟩, ⟨some "c", none, none, none, none⟩]) ∧
    ("c" ∈ nodeIds [⟨some "a", none, none, none, none⟩,
        ⟨some "b", none, none, none, none⟩, ⟨some "c", none, none, none, none⟩]) ∧
    (∃ p, IsPath [⟨"a", "b"⟩, ⟨"b", "c"⟩] "a" "c" p) ∧
    (∃ p, findShortestPath [⟨"a", "b"⟩, ⟨"b", "c"⟩] "a" "c" = some p ∧
      IsPath [⟨"a", "b"⟩, ⟨"b", "c"⟩] "a" "c" p ∧
      ∀ p', IsPath [⟨"a", "b"⟩, ⟨"b", "c"⟩] "a" "c" p' → p.length ≤ p'.length) :=
  ⟨by decide, by decide,
   ⟨["a", "b", "c"], (isPathB_iff _ _ _ _).mp rfl⟩,
   findShortestPath_minimal
     [⟨some "a", none, none, none, none⟩, ⟨some "b", none, none, none, none⟩,
      ⟨some "c", none, none, none, none⟩]
     [⟨"a", "b"⟩, ⟨"b", "c"⟩] "a" "c" (by decide) (by decide)
     ⟨["a", "b", "c"], (isPathB_iff _ _ _ _).mp rfl⟩⟩

/-- C1 counterexample: on the empty graph with distinct absent endpoints the
search returns none (the JS null), not the empty sequence the claim
demands. -/
theorem findShortestPath_null_counterexample :
    findShortestPath [] "a" "b" = none ∧ findShortestPath [] "a" "b" ≠ some [] := by
  exact ⟨rfl, by decide⟩

/-- C1 amended: findShortestPath returns none (JS null, not an empty
sequence) whenever no link path connects the two ids, which covers every
case where an endpoint is absent and the ids differ; and for equal ids it
returns the singleton path even when the id is absent from the graph. -/
theorem findShortestPath_no_path (links : List Link) (A B : String) :
    ((¬ ∃ p, IsPath links A B p) → findShortestPath links A B = none) ∧
    findShortestPath links A A = some [A] := by
  constructor
  · intro hno
    cases h : findShortestPath links A B with
    | none => rfl
    | some p =>
      exfalso
      apply hno
      refine ⟨p, ?_⟩
      apply bfsAux_sound links A B _ _ _ _ ?_ h
      intro rp hrp
      rw [List.mem_singleton] at hrp
      subst hrp
      exact ⟨A, rfl, isPath_self links A⟩
  · show bfsAux links A (4 * links.length + 1) [[A]] [A] = some [A]
    rw [bfsAux, if_pos rfl]
    rfl

theorem no_path_xy_ab : ¬ ∃ p, IsPath [⟨"x", "y"⟩] "a" "b" p := by
  rintro ⟨p, h1, h2, h3⟩
  cases p with
  | nil => simp at h1
  | cons z t =>
    have hz : z = "a" := by simpa using h1
    cases t with
    | nil =>
      have hzb : z = "b" := by simpa using h2
      rw [hz] at hzb
      exact absurd hzb (by decide)
    | cons y' t' =>
      have hadj := (List.chain'_cons.mp h3).1
      obtain ⟨l, hl, hc⟩ := hadj
      rw [List.mem_singleton] at hl
      subst hl
      rw [hz] at hc
      rcases hc with ⟨hc, -⟩ | ⟨hc, -⟩ <;> exact absurd hc (by decide)

/-- C1 amended, witness: the one-link graph x - y has no path from a to b,
and the search returns none there; the self query returns the singleton. -/
theorem findShortestPath_no_path_witness :
    (¬ ∃ p, IsPath [⟨"x", "y"⟩] "a" "b" p) ∧
    findShortestPath [⟨"x", "y"⟩] "a" "b" = none ∧
    findShortestPath [⟨"x", "y"⟩] "a" "a" = some ["a"] :=
  ⟨no_path_xy_ab, (findShortestPath_no_path [⟨"x", "y"⟩] "a" "b").1 no_path_xy_ab,
   (findShortestPath_no_path [⟨"x", "y"⟩] "a" "a").2⟩

end FCW
